import Mathlib

/-!
Verification of the numeric-formatting core of the `utilities` repository
(`src/lib/funs.ts`): range inversion (`invertRange`), pretty axis breaks
(`prettyBreaks`), and scientific-notation superscript formatting
(`convertToSuperscript`, `exponentialToSuperscript`).

Modelling conventions:
* JavaScript `number` arithmetic is embedded as exact rational arithmetic
  (`ℚ`) for the claims about finite inputs; a separate type `JSVal` with
  `Infinity`, `-Infinity` and `NaN` values embeds the IEEE-754
  special-value behavior that the unguarded source code exhibits on a
  degenerate range (`min == max`).
* JavaScript strings are embedded as `List Char`; `String.prototype.split`
  with a one-character separator is embedded as `splitOnChar`.
* A JavaScript function that can throw (here: `exponentialToSuperscript`
  calling `.split` on `undefined`) is embedded with an `Option` result,
  `none` standing for the thrown `TypeError`.
-/

/-! ## Superscript formatting (`src/lib/funs.ts` lines 574-610) -/

/-- Embedding of `String.prototype.split` with a single-character
separator: `splitOnChar sep l` returns the (possibly empty) pieces of `l`
between occurrences of `sep`, exactly as JavaScript `l.split(sep)` does
(`n` separators yield `n + 1` pieces, empty pieces included). -/
def splitOnChar (sep : Char) : List Char → List (List Char)
  | [] => [[]]
  | c :: cs =>
    if c = sep then [] :: splitOnChar sep cs
    else
      match splitOnChar sep cs with
      | [] => [[c]]
      | r :: rs => (c :: r) :: rs

/-- The `sups` lookup table from the source: maps `-`, `+` and the ten
digits to their superscript forms (`+` maps to the empty string); any
other character is absent from the table (JavaScript: the lookup yields
`undefined`). -/
def sups (c : Char) : Option (List Char) :=
  if c = '-' then some ['⁻']
  else if c = '+' then some []
  else if c = '0' then some ['⁰']
  else if c = '1' then some ['¹']
  else if c = '2' then some ['²']
  else if c = '3' then some ['³']
  else if c = '4' then some ['⁴']
  else if c = '5' then some ['⁵']
  else if c = '6' then some ['⁶']
  else if c = '7' then some ['⁷']
  else if c = '8' then some ['⁸']
  else if c = '9' then some ['⁹']
  else none

/-- Embedding of `convertToSuperscript`: the source maps every character
through the `sups` table and joins the results with `""`. JavaScript
`Array.prototype.join` renders an `undefined` element (a character absent
from the table) as the empty string, hence the `.getD []`. -/
def convertToSuperscript (n : List Char) : List Char :=
  (n.map (fun c => (sups c).getD [])).flatten

/-- Embedding of `exponentialToSuperscript`: split on `"e"`, destructure
into `base` and `exponent` (extra pieces are silently dropped by the
destructuring), and return `base + "×10" + convertToSuperscript exponent`.
When the split yields a single piece (no `"e"` in the input), `exponent`
is `undefined` and `convertToSuperscript` throws a `TypeError` calling
`.split` on it; this thrown exception is modelled as `none`. -/
def exponentialToSuperscript (n : List Char) : Option (List Char) :=
  match splitOnChar 'e' n with
  | b :: e :: _ => some (b ++ ('×' :: '1' :: '0' :: convertToSuperscript e))
  | _ => none

/-- The exponent alphabet the specification allows: `-`, `+` and the ten
digits. -/
def expAlphabet : List Char :=
  ['-', '+', '0', '1', '2', '3', '4', '5', '6', '7', '8', '9']

/-- Modelled from the spec: the per-character superscript mapping as the
specification states it (a total function on the allowed alphabet, used to
compare the code's table-plus-join behavior against the spec's words). -/
def supSpec (c : Char) : List Char :=
  if c = '-' then ['⁻']
  else if c = '+' then []
  else if c = '0' then ['⁰']
  else if c = '1' then ['¹']
  else if c = '2' then ['²']
  else if c = '3' then ['³']
  else if c = '4' then ['⁴']
  else if c = '5' then ['⁵']
  else if c = '6' then ['⁶']
  else if c = '7' then ['⁷']
  else if c = '8' then ['⁸']
  else if c = '9' then ['⁹']
  else []

lemma splitOnChar_of_not_mem (sep : Char) (l : List Char) (h : sep ∉ l) :
    splitOnChar sep l = [l] := by
  induction l with
  | nil => rfl
  | cons c cs ih =>
    have hc : c ≠ sep := fun hc => h (hc ▸ List.mem_cons_self c cs)
    have hcs : sep ∉ cs := fun hm => h (List.mem_cons_of_mem c hm)
    simp [splitOnChar, hc, ih hcs]

lemma splitOnChar_append (sep : Char) (b e : List Char) (hb : sep ∉ b) :
    splitOnChar sep (b ++ sep :: e) = b :: splitOnChar sep e := by
  induction b with
  | nil => simp [splitOnChar]
  | cons c cs ih =>
    have hc : c ≠ sep := fun hc => hb (hc ▸ List.mem_cons_self c cs)
    have hcs : sep ∉ cs := fun hm => hb (List.mem_cons_of_mem c hm)
    have hrec := ih hcs
    simp only [List.cons_append, splitOnChar, if_neg hc]
    rw [show cs.append (sep :: e) = cs ++ sep :: e from rfl, hrec]

lemma sups_eq_supSpec (c : Char) (hc : c ∈ expAlphabet) :
    sups c = some (supSpec c) := by
  fin_cases hc <;> rfl

/-- C8: for every well-formed input `base ++ "e" ++ exponent` with exactly
one `"e"` separator and exponent characters drawn from `{-, +, 0-9}`,
`exponentialToSuperscript` returns `base + "×10" +` the superscript
mapping of the exponent. -/
theorem exponentialToSuperscript_wellFormed (b e : List Char)
    (hb : 'e' ∉ b) (he : 'e' ∉ e) (hc : ∀ c ∈ e, c ∈ expAlphabet) :
    exponentialToSuperscript (b ++ 'e' :: e) =
      some (b ++ ('×' :: '1' :: '0' :: (e.map supSpec).flatten)) := by
  have hsplit := splitOnChar_append 'e' b e hb
  have hrest := splitOnChar_of_not_mem 'e' e he
  rw [exponentialToSuperscript, hsplit, hrest]
  have hconv : convertToSuperscript e = (e.map supSpec).flatten := by
    unfold convertToSuperscript
    congr 1
    apply List.map_congr_left
    intro c hcm
    rw [sups_eq_supSpec c (hc c hcm)]
    rfl
  show some (b ++ '×' :: '1' :: '0' :: convertToSuperscript e) =
    some (b ++ '×' :: '1' :: '0' :: (e.map supSpec).flatten)
  rw [hconv]

/-- Witness for C8: the spec's concrete scenarios, `"1.2e4" ↦ "1.2×10⁴"`
and `"3.4e-5" ↦ "3.4×10⁻⁵"`. -/
theorem exponentialToSuperscript_wellFormed_witness :
    exponentialToSuperscript ['1', '.', '2', 'e', '4'] =
        some ['1', '.', '2', '×', '1', '0', '⁴'] ∧
      exponentialToSuperscript ['3', '.', '4', 'e', '-', '5'] =
        some ['3', '.', '4', '×', '1', '0', '⁻', '⁵'] := by
  constructor
  · exact exponentialToSuperscript_wellFormed ['1', '.', '2'] ['4']
      (by decide) (by decide) (by decide)
  · exact exponentialToSuperscript_wellFormed ['3', '.', '4'] ['-', '5']
      (by decide) (by decide) (by decide)

/-- C9 counterexample: on `"1.2ex"`, whose exponent substring `"x"`
contains a character outside `{-, +, 0-9}`, the code does not fail at all:
it silently returns the garbage output `"1.2×10"` (the unknown character
is rendered as the empty string by `join`). -/
theorem exponentialToSuperscript_invalid_char_silent :
    exponentialToSuperscript ['1', '.', '2', 'e', 'x'] =
      some ['1', '.', '2', '×', '1', '0'] := by
  rfl

/-- C9 amended: an input lacking the `"e"` separator makes the code throw
a `TypeError` (`convertToSuperscript` receives `undefined`; modelled as
`none`) rather than a dedicated `MalformedScientificStringError`, while an
exponent character outside `{-, +, 0-9}` is silently dropped (mapped to
the empty string), producing output with no reported error. -/
theorem exponentialToSuperscript_malformed_behavior :
    (∀ s : List Char, 'e' ∉ s → exponentialToSuperscript s = none) ∧
      exponentialToSuperscript ['1', '.', '2', 'e', 'x'] =
        some ['1', '.', '2', '×', '1', '0'] ∧
      exponentialToSuperscript ['4', '2'] = none := by
  refine ⟨fun s hs => ?_, by rfl, by rfl⟩
  rw [exponentialToSuperscript, splitOnChar_of_not_mem 'e' s hs]

/-- Witness for C9 amended: the spec's error scenario input `"42"` (no
`"e"`), on which the code throws. -/
theorem exponentialToSuperscript_malformed_behavior_witness :
    exponentialToSuperscript ['4', '2'] = none :=
  exponentialToSuperscript_malformed_behavior.1 ['4', '2'] (by decide)

/-! ## Range inversion and pretty breaks (`src/lib/funs.ts` lines 511-572)

The claims about non-degenerate, finite inputs are settled over exact
rational arithmetic (`ℚ`), the ideal-arithmetic reading the specification
itself uses (`§8`: "exactly in ideal arithmetic"). `Math.floor(Math.log10 q)`
for `q > 0` is `Int.log 10 q`, the unique `e` with `10^e ≤ q < 10^(e+1)`. -/

/-- Embedding of `invertRange`: `rangeInverse = 1 / (max - min)`, returns
`[-min * rangeInverse, rangeInverse - min * rangeInverse, rangeInverse]`. -/
def invertRange (min max : ℚ) : ℚ × ℚ × ℚ :=
  let rangeInverse := 1 / (max - min)
  (-min * rangeInverse, rangeInverse - min * rangeInverse, rangeInverse)

/-- The `neatUnits` array from the source. -/
def neatUnits : List ℚ := [1, 2, 4, 5, 10]

/-- The squared distance `(d * 10 ** base - unitGross) ** 2` computed for
each candidate in the selection loop of `prettyBreaks`. -/
def sqDist (u : ℚ) (b : ℤ) (d : ℚ) : ℚ :=
  (d * (10 : ℚ) ^ b - u) ^ 2

/-- One iteration of the selection loop of `prettyBreaks`: replace the
accumulated `[minDist, neatValue]` pair exactly when the candidate's
squared distance is strictly below the accumulated minimum. The initial
`minDist = Infinity` is modelled as `none`, which every finite squared
distance is below. -/
def neatStep (u : ℚ) (b : ℤ) (acc : Option ℚ × ℚ) (d : ℚ) : Option ℚ × ℚ :=
  match acc.1 with
  | none => (some (sqDist u b d), d)
  | some m => if sqDist u b d < m then (some (sqDist u b d), d) else acc

/-- The selection loop of `prettyBreaks` in full: a left-to-right scan of
`neatUnits` starting from `[minDist, neatValue] = [Infinity, 0]`,
returning the selected `neatValue`. -/
def selectNeatValue (u : ℚ) (b : ℤ) : ℚ :=
  (neatUnits.foldl (neatStep u b) (none, 0)).2

/-- The local `unitGross = (max - min) / n` of `prettyBreaks`. -/
def unitGross (min max n : ℚ) : ℚ := (max - min) / n

/-- The local `base = Math.floor(Math.log10(unitGross))` of `prettyBreaks`. -/
def base10 (min max n : ℚ) : ℤ := Int.log 10 (unitGross min max n)

/-- The local `unitNeat = 10 ** base * neatValue` of `prettyBreaks`. -/
def unitNeat (min max n : ℚ) : ℚ :=
  (10 : ℚ) ^ base10 min max n *
    selectNeatValue (unitGross min max n) (base10 min max n)

/-- The local `minNeat = Math.ceil(min / unitNeat) * unitNeat` of
`prettyBreaks`. -/
def minNeat (min max n : ℚ) : ℚ :=
  ⌈min / unitNeat min max n⌉ * unitNeat min max n

/-- The local `maxNeat = Math.floor(max / unitNeat) * unitNeat` of
`prettyBreaks`. -/
def maxNeat (min max n : ℚ) : ℚ :=
  ⌊max / unitNeat min max n⌋ * unitNeat min max n

/-- The local `newN = Math.round((maxNeat - minNeat) / unitNeat)` of
`prettyBreaks`; Lean's `round` is round-half-up, as `Math.round` is. -/
def newN (min max n : ℚ) : ℤ :=
  round ((maxNeat min max n - minNeat min max n) / unitNeat min max n)

/-- Embedding of `prettyBreaks`: the loop `for (i = 0; i < newN + 1; i++)`
pushes `minNeat + i * unitNeat`, after which `maxNeat` is pushed once
more. An integer counter loop bounded by `newN + 1` runs
`max 0 (newN + 1)` times, i.e. `(newN + 1).toNat` times. -/
def prettyBreaks (min max : ℚ) (n : ℚ := 4) : List ℚ :=
  (List.range (newN min max n + 1).toNat).map
    (fun (i : ℕ) => minNeat min max n + (i : ℚ) * unitNeat min max n)
  ++ [maxNeat min max n]

lemma int_log_eq_of_bounds (e : ℤ) (q : ℚ) (h1 : (10 : ℚ) ^ e ≤ q)
    (h2 : q < 10 ^ (e + 1)) : Int.log 10 q = e := by
  have hq : 0 < q := lt_of_lt_of_le (by positivity) h1
  have hb : 1 < (10 : ℕ) := by norm_num
  have l1 := Int.zpow_log_le_self (b := 10) (r := q) hb hq
  have l2 := Int.lt_zpow_succ_log_self (b := 10) (r := q) hb
  have c10 : ((10 : ℕ) : ℚ) = (10 : ℚ) := by norm_num
  rw [c10] at l1 l2
  have h3 : Int.log 10 q < e + 1 := by
    by_contra hcon
    push_neg at hcon
    have : (10 : ℚ) ^ (e + 1) ≤ 10 ^ Int.log 10 q :=
      zpow_le_zpow_right₀ (by norm_num) hcon
    linarith
  have h4 : e < Int.log 10 q + 1 := by
    by_contra hcon
    push_neg at hcon
    have : (10 : ℚ) ^ (Int.log 10 q + 1) ≤ 10 ^ e :=
      zpow_le_zpow_right₀ (by norm_num) hcon
    linarith
  omega

/-- C3: for `max ≠ min`, `invertRange` returns exactly the triple
`(-min * rangeInverse, rangeInverse - min * rangeInverse, rangeInverse)`
with `rangeInverse = 1 / (max - min)`. -/
theorem invertRange_formula (min max : ℚ) (h : max ≠ min) :
    invertRange min max =
      (-min * (1 / (max - min)), 1 / (max - min) - min * (1 / (max - min)),
        1 / (max - min)) := by
  rfl

/-- Witness for C3: `invertRange 0 10 = (0, 1/10, 1/10)`, the spec's
concrete scenario 1. -/
theorem invertRange_formula_witness :
    invertRange 0 10 = (0, 1 / 10, 1 / 10) := by
  have h := invertRange_formula 0 10 (by norm_num)
  rw [h]
  norm_num

/-- C4: round-trip of `invertRange`: for `min < max`, the inverse relation
`scale x = (x - newMin) / (newMax - newMin)` applied to the returned
triple satisfies `scale 0 = min` and `scale 1 = max`, exactly, in ideal
arithmetic. -/
theorem invertRange_roundTrip (min max : ℚ) (h : min < max) :
    (0 - (invertRange min max).1) /
        ((invertRange min max).2.1 - (invertRange min max).1) = min ∧
      (1 - (invertRange min max).1) /
        ((invertRange min max).2.1 - (invertRange min max).1) = max := by
  have hne : max - min ≠ 0 := sub_ne_zero.mpr (ne_of_gt h)
  simp only [invertRange]
  constructor
  · field_simp
  · field_simp

/-- Witness for C4: the round-trip at `(min, max) = (0, 10)`. -/
theorem invertRange_roundTrip_witness :
    (0 - (invertRange 0 10).1) /
        ((invertRange 0 10).2.1 - (invertRange 0 10).1) = 0 ∧
      (1 - (invertRange 0 10).1) /
        ((invertRange 0 10).2.1 - (invertRange 0 10).1) = 10 :=
  invertRange_roundTrip 0 10 (by norm_num)

lemma foldl_neatStep_spec (u : ℚ) (b : ℤ) (l : List ℚ) :
    ∀ v : ℚ,
      ∃ w, l.foldl (neatStep u b) (some (sqDist u b v), v) =
          (some (sqDist u b w), w) ∧
        ((w = v ∧ ∀ c ∈ l, sqDist u b v ≤ sqDist u b c) ∨
          (∃ l₁ l₂, l = l₁ ++ w :: l₂ ∧ sqDist u b w < sqDist u b v ∧
            (∀ c ∈ l₁, sqDist u b w < sqDist u b c) ∧
            (∀ c ∈ l₂, sqDist u b w ≤ sqDist u b c))) := by
  induction l with
  | nil =>
    intro v
    exact ⟨v, rfl, Or.inl ⟨rfl, by simp⟩⟩
  | cons d ds ih =>
    intro v
    by_cases hd : sqDist u b d < sqDist u b v
    · obtain ⟨w, hw, hcase⟩ := ih d
      have hstep : neatStep u b (some (sqDist u b v), v) d =
          (some (sqDist u b d), d) := by
        simp [neatStep, hd]
      refine ⟨w, ?_, ?_⟩
      · rw [List.foldl_cons, hstep, hw]
      · rcases hcase with ⟨hwv, hall⟩ | ⟨l₁, l₂, hdec, hlt, h1, h2⟩
        · subst hwv
          exact Or.inr ⟨[], ds, rfl, hd, by simp, hall⟩
        · refine Or.inr ⟨d :: l₁, l₂, by rw [hdec]; rfl, lt_trans hlt hd, ?_, h2⟩
          intro c hcm
          rcases List.mem_cons.mp hcm with hcd | hcl
          · exact hcd ▸ hlt
          · exact h1 c hcl
    · obtain ⟨w, hw, hcase⟩ := ih v
      have hstep : neatStep u b (some (sqDist u b v), v) d =
          (some (sqDist u b v), v) := by
        simp [neatStep, hd]
      refine ⟨w, ?_, ?_⟩
      · rw [List.foldl_cons, hstep, hw]
      · rcases hcase with ⟨hwv, hall⟩ | ⟨l₁, l₂, hdec, hlt, h1, h2⟩
        · refine Or.inl ⟨hwv, ?_⟩
          intro c hcm
          rcases List.mem_cons.mp hcm with hcd | hcl
          · exact hcd ▸ not_lt.mp hd
          · exact hall c hcl
        · refine Or.inr ⟨d :: l₁, l₂, by rw [hdec]; rfl, hlt, ?_, h2⟩
          intro c hcm
          rcases List.mem_cons.mp hcm with hcd | hcl
          · exact hcd ▸ lt_of_lt_of_le hlt (not_lt.mp hd)
          · exact h1 c hcl

lemma selectNeatValue_spec (u : ℚ) (b : ℤ) :
    ∃ l₁ l₂, neatUnits = l₁ ++ selectNeatValue u b :: l₂ ∧
      (∀ c ∈ neatUnits, sqDist u b (selectNeatValue u b) ≤ sqDist u b c) ∧
      (∀ c ∈ l₁, sqDist u b (selectNeatValue u b) < sqDist u b c) ∧
      (∀ c ∈ l₂, sqDist u b (selectNeatValue u b) ≤ sqDist u b c) := by
  obtain ⟨w, hw, hcase⟩ := foldl_neatStep_spec u b [2, 4, 5, 10] 1
  have hsel : selectNeatValue u b = w := by
    unfold selectNeatValue
    have hfold : neatUnits.foldl (neatStep u b) (none, 0) =
        ([2, 4, 5, 10] : List ℚ).foldl (neatStep u b)
          (some (sqDist u b 1), 1) := by
      rfl
    rw [hfold, hw]
  rw [hsel]
  rcases hcase with ⟨hwv, hall⟩ | ⟨l₁, l₂, hdec, hlt, h1, h2⟩
  · subst hwv
    refine ⟨[], [2, 4, 5, 10], rfl, ?_, by simp, hall⟩
    intro c hcm
    rcases List.mem_cons.mp hcm with hc1 | hcl
    · exact hc1 ▸ le_refl _
    · exact hall c hcl
  · have hdecn : neatUnits = (1 :: l₁) ++ w :: l₂ := by
      show (1 : ℚ) :: ([2, 4, 5, 10] : List ℚ) = (1 :: l₁) ++ w :: l₂
      rw [hdec]
      rfl
    refine ⟨1 :: l₁, l₂, hdecn, ?_, ?_, h2⟩
    · intro c hcm
      rw [hdecn] at hcm
      rcases List.mem_append.mp hcm with hcl | hcr
      · rcases List.mem_cons.mp hcl with hc1 | hcl₁
        · exact hc1 ▸ le_of_lt hlt
        · exact le_of_lt (h1 c hcl₁)
      · rcases List.mem_cons.mp hcr with hcw | hcl₂
        · exact hcw ▸ le_refl _
        · exact h2 c hcl₂
    · intro c hcm
      rcases List.mem_cons.mp hcm with hc1 | hcl₁
      · exact hc1 ▸ hlt
      · exact h1 c hcl₁

lemma selectNeatValue_mem (u : ℚ) (b : ℤ) : selectNeatValue u b ∈ neatUnits := by
  obtain ⟨l₁, l₂, hdec, -, -, -⟩ := selectNeatValue_spec u b
  rw [hdec]
  exact List.mem_append_right _ (List.mem_cons_self _ _)

lemma selectNeatValue_pos (u : ℚ) (b : ℤ) : 0 < selectNeatValue u b := by
  have h := selectNeatValue_mem u b
  simp only [neatUnits, List.mem_cons, List.not_mem_nil, or_false] at h
  rcases h with h | h | h | h | h <;> rw [h] <;> norm_num

lemma unitNeat_pos (min max n : ℚ) : 0 < unitNeat min max n :=
  mul_pos (zpow_pos (by norm_num) _)
    (selectNeatValue_pos (unitGross min max n) (base10 min max n))

lemma newN_eq (min max n : ℚ) :
    newN min max n =
      ⌊max / unitNeat min max n⌋ - ⌈min / unitNeat min max n⌉ := by
  have hu : unitNeat min max n ≠ 0 := ne_of_gt (unitNeat_pos min max n)
  unfold newN maxNeat minNeat
  have hq : (⌊max / unitNeat min max n⌋ * unitNeat min max n -
      ⌈min / unitNeat min max n⌉ * unitNeat min max n) / unitNeat min max n =
      ((⌊max / unitNeat min max n⌋ - ⌈min / unitNeat min max n⌉ : ℤ) : ℚ) := by
    rw [div_eq_iff hu]
    push_cast
    ring
  rw [hq, round_intCast]

lemma minNeat_add_newN_mul (min max n : ℚ) :
    minNeat min max n + (newN min max n : ℚ) * unitNeat min max n =
      maxNeat min max n := by
  rw [newN_eq]
  unfold minNeat maxNeat
  push_cast
  ring

lemma newN_ge_neg_one (min max n : ℚ) (hmm : min ≤ max) :
    -1 ≤ newN min max n := by
  have hu := unitNeat_pos min max n
  rw [newN_eq]
  have h1 : ⌈min / unitNeat min max n⌉ ≤ ⌊min / unitNeat min max n⌋ + 1 :=
    Int.ceil_le_floor_add_one _
  have h2 : ⌊min / unitNeat min max n⌋ ≤ ⌊max / unitNeat min max n⌋ :=
    Int.floor_le_floor (div_le_div_of_nonneg_right hmm hu.le)
  omega

lemma min_le_minNeat (min max n : ℚ) : min ≤ minNeat min max n := by
  have hu := unitNeat_pos min max n
  unfold minNeat
  rw [← div_le_iff₀ hu]
  exact Int.le_ceil _

lemma maxNeat_le_max (min max n : ℚ) : maxNeat min max n ≤ max := by
  have hu := unitNeat_pos min max n
  unfold maxNeat
  rw [← le_div_iff₀ hu]
  exact Int.floor_le _

/-- C7: the neat-unit selection in `prettyBreaks` scans the candidates
`[1, 2, 4, 5, 10]` left to right minimizing the squared distance
`(d * 10 ^ base - unitGross) ^ 2`, and on exact ties the first-encountered
minimum wins (strict less-than replacement): the selected value splits
`neatUnits` into earlier candidates, all of strictly greater distance, and
later candidates, all of greater-or-equal distance. -/
theorem selectNeatValue_first_min (u : ℚ) (b : ℤ) :
    ∃ l₁ l₂, neatUnits = l₁ ++ selectNeatValue u b :: l₂ ∧
      (∀ c ∈ neatUnits, sqDist u b (selectNeatValue u b) ≤ sqDist u b c) ∧
      (∀ c ∈ l₁, sqDist u b (selectNeatValue u b) < sqDist u b c) ∧
      (∀ c ∈ l₂, sqDist u b (selectNeatValue u b) ≤ sqDist u b c) :=
  selectNeatValue_spec u b

/-- C5: for `min < max` and `n > 0` the result of `prettyBreaks` is the
loop values `minNeat + i * unitNeat`, `i = 0, ..., newN`, followed by one
unconditionally appended copy of `maxNeat`; its length is `newN + 2`, and
the loop's last value (`i = newN`, whenever the loop runs) already equals
`maxNeat`, so the appended value duplicates it. -/
theorem prettyBreaks_shape (min max n : ℚ) (hmm : min < max) (hn : 0 < n) :
    prettyBreaks min max n =
        (List.range (newN min max n + 1).toNat).map
          (fun (i : ℕ) => minNeat min max n + (i : ℚ) * unitNeat min max n)
        ++ [maxNeat min max n] ∧
      ((prettyBreaks min max n).length : ℤ) = newN min max n + 2 ∧
      minNeat min max n + (newN min max n : ℚ) * unitNeat min max n =
        maxNeat min max n := by
  refine ⟨rfl, ?_, minNeat_add_newN_mul min max n⟩
  have hge := newN_ge_neg_one min max n hmm.le
  have hlen : (prettyBreaks min max n).length =
      (newN min max n + 1).toNat + 1 := by
    simp [prettyBreaks]
  rw [hlen]
  push_cast [Int.toNat_of_nonneg (by omega : (0 : ℤ) ≤ newN min max n + 1)]
  ring

lemma prettyBreaks_loop_sorted (min max n : ℚ) :
    List.Sorted (· < ·)
      ((List.range (newN min max n + 1).toNat).map
        (fun (i : ℕ) => minNeat min max n + (i : ℚ) * unitNeat min max n)) := by
  have hu := unitNeat_pos min max n
  rw [List.Sorted, List.pairwise_map]
  refine (List.pairwise_lt_range _).imp ?_
  intro i j hij
  have hij' : (i : ℚ) < (j : ℚ) := by exact_mod_cast hij
  exact add_lt_add_left (mul_lt_mul_of_pos_right hij' hu) _

lemma prettyBreaks_loop_le_maxNeat (min max n : ℚ) (x : ℚ)
    (hx : x ∈ (List.range (newN min max n + 1).toNat).map
      (fun (i : ℕ) => minNeat min max n + (i : ℚ) * unitNeat min max n)) :
    x ≤ maxNeat min max n := by
  have hu := unitNeat_pos min max n
  obtain ⟨i, hi, rfl⟩ := List.mem_map.mp hx
  have hik := List.mem_range.mp hi
  have hile : (i : ℤ) ≤ newN min max n := by omega
  have hile' : (i : ℚ) ≤ (newN min max n : ℚ) := by exact_mod_cast hile
  calc minNeat min max n + (i : ℚ) * unitNeat min max n
      ≤ minNeat min max n + (newN min max n : ℚ) * unitNeat min max n :=
        add_le_add_left (mul_le_mul_of_nonneg_right hile' hu.le) _
    _ = maxNeat min max n := minNeat_add_newN_mul min max n

lemma prettyBreaks_loop_ge_minNeat (min max n : ℚ) (x : ℚ)
    (hx : x ∈ (List.range (newN min max n + 1).toNat).map
      (fun (i : ℕ) => minNeat min max n + (i : ℚ) * unitNeat min max n)) :
    minNeat min max n ≤ x := by
  have hu := unitNeat_pos min max n
  obtain ⟨i, hi, rfl⟩ := List.mem_map.mp hx
  have : (0 : ℚ) ≤ (i : ℚ) * unitNeat min max n :=
    mul_nonneg (by positivity) hu.le
  linarith

/-- C6: for `min < max` and `n > 0` the sequence returned by
`prettyBreaks` is non-decreasing, strictly increasing on every adjacent
pair except the final one, and (whenever it has at least two entries) its
last two entries are the duplicated `maxNeat`. -/
theorem prettyBreaks_monotone (min max n : ℚ) (hmm : min < max)
    (hn : 0 < n) :
    List.Sorted (· ≤ ·) (prettyBreaks min max n) ∧
      List.Sorted (· < ·) (prettyBreaks min max n).dropLast ∧
      (prettyBreaks min max n).getLast? = some (maxNeat min max n) ∧
      (2 ≤ (prettyBreaks min max n).length →
        (prettyBreaks min max n).dropLast.getLast? =
          some (maxNeat min max n)) := by
  have hu := unitNeat_pos min max n
  refine ⟨?_, ?_, ?_, ?_⟩
  · rw [prettyBreaks, List.Sorted, List.pairwise_append]
    refine ⟨(prettyBreaks_loop_sorted min max n).imp (fun h => le_of_lt h),
      List.pairwise_singleton _ _, ?_⟩
    intro x hx y hy
    rw [List.mem_singleton] at hy
    subst hy
    exact prettyBreaks_loop_le_maxNeat min max n x hx
  · rw [prettyBreaks, List.dropLast_concat]
    exact prettyBreaks_loop_sorted min max n
  · rw [prettyBreaks]
    exact List.getLast?_concat _
  · intro hlen
    have hk : 1 ≤ (newN min max n + 1).toNat := by
      rw [prettyBreaks] at hlen
      simp only [List.length_append, List.length_map, List.length_range,
        List.length_cons, List.length_nil] at hlen
      omega
    obtain ⟨j, hj⟩ : ∃ j, (newN min max n + 1).toNat = j + 1 :=
      ⟨(newN min max n + 1).toNat - 1, by omega⟩
    have hjz : (j : ℤ) = newN min max n := by omega
    rw [prettyBreaks, List.dropLast_concat, hj, List.range_succ,
      List.map_append]
    simp only [List.map_cons, List.map_nil]
    rw [List.getLast?_concat]
    have : minNeat min max n + (j : ℚ) * unitNeat min max n =
        maxNeat min max n := by
      rw [show ((j : ℕ) : ℚ) = ((newN min max n : ℤ) : ℚ) by exact_mod_cast hjz]
      exact minNeat_add_newN_mul min max n
    rw [this]

/-- Witness for C6: the monotonicity statement instantiated at
`(0, 10, 4)`. -/
theorem prettyBreaks_monotone_witness :
    List.Sorted (· ≤ ·) (prettyBreaks 0 10 4) ∧
      List.Sorted (· < ·) (prettyBreaks 0 10 4).dropLast ∧
      (prettyBreaks 0 10 4).getLast? = some (maxNeat 0 10 4) ∧
      (2 ≤ (prettyBreaks 0 10 4).length →
        (prettyBreaks 0 10 4).dropLast.getLast? = some (maxNeat 0 10 4)) :=
  prettyBreaks_monotone 0 10 4 (by decide) (by decide)

/-- Witness for C5: the shape and length statement instantiated at
`(0, 10, 4)`. -/
theorem prettyBreaks_shape_witness :
    prettyBreaks 0 10 4 =
        (List.range (newN 0 10 4 + 1).toNat).map
          (fun (i : ℕ) => minNeat 0 10 4 + (i : ℚ) * unitNeat 0 10 4)
        ++ [maxNeat 0 10 4] ∧
      ((prettyBreaks 0 10 4).length : ℤ) = newN 0 10 4 + 2 ∧
      minNeat 0 10 4 + (newN 0 10 4 : ℚ) * unitNeat 0 10 4 =
        maxNeat 0 10 4 :=
  prettyBreaks_shape 0 10 4 (by decide) (by decide)

lemma int_ceil_eq (z : ℤ) (q : ℚ) (h1 : (z : ℚ) - 1 < q)
    (h2 : q ≤ (z : ℚ)) : ⌈q⌉ = z := by
  have hle : ⌈q⌉ ≤ z := Int.ceil_le.mpr h2
  have hgt : z - 1 < ⌈q⌉ := Int.lt_ceil.mpr (by push_cast; linarith)
  omega

lemma int_floor_eq (z : ℤ) (q : ℚ) (h1 : (z : ℚ) ≤ q)
    (h2 : q < (z : ℚ) + 1) : ⌊q⌋ = z := by
  have hle : z ≤ ⌊q⌋ := Int.le_floor.mpr h1
  have hlt : ⌊q⌋ < z + 1 := Int.floor_lt.mpr (by push_cast; linarith)
  omega

lemma round_eq_int (z : ℤ) (q : ℚ) (h : q = (z : ℚ)) : round q = z := by
  rw [h, round_intCast]

lemma unitGross_eval_1 : unitGross 0 10 4 = 5 / 2 := by
  norm_num [unitGross]

lemma base10_eval_1 : base10 0 10 4 = 0 := by
  rw [base10, unitGross_eval_1]
  refine int_log_eq_of_bounds 0 (5 / 2) ?_ ?_
  · rw [zpow_zero]
    norm_num
  · rw [zero_add, zpow_one]
    norm_num

lemma selectNeatValue_eval_1 : selectNeatValue (5 / 2) 0 = 2 := by
  norm_num [selectNeatValue, neatUnits, neatStep, sqDist, zpow_zero]

lemma unitNeat_eval_1 : unitNeat 0 10 4 = 2 := by
  rw [unitNeat, unitGross_eval_1, base10_eval_1, selectNeatValue_eval_1,
    zpow_zero, one_mul]

lemma minNeat_eval_1 : minNeat 0 10 4 = 0 := by
  rw [minNeat, unitNeat_eval_1]
  rw [int_ceil_eq 0 (0 / 2) (by norm_num) (by norm_num)]
  norm_num

lemma maxNeat_eval_1 : maxNeat 0 10 4 = 10 := by
  rw [maxNeat, unitNeat_eval_1]
  rw [int_floor_eq 5 (10 / 2) (by norm_num) (by norm_num)]
  norm_num

lemma newN_eval_1 : newN 0 10 4 = 5 := by
  rw [newN, maxNeat_eval_1, minNeat_eval_1, unitNeat_eval_1]
  exact round_eq_int 5 _ (by norm_num)

/-- C1: `prettyBreaks 0 10 4` has gross unit `5/2`, selects the neat
candidate `2` (the squared-distance minimizer among `[1, 2, 4, 5, 10]`),
and returns exactly `[0, 2, 4, 6, 8, 10, 10]`, with the final value
duplicated. -/
theorem prettyBreaks_scenario_0_10_4 :
    unitGross 0 10 4 = 5 / 2 ∧
      selectNeatValue (unitGross 0 10 4) (base10 0 10 4) = 2 ∧
      prettyBreaks 0 10 4 = [0, 2, 4, 6, 8, 10, 10] := by
  refine ⟨unitGross_eval_1, ?_, ?_⟩
  · rw [unitGross_eval_1, base10_eval_1]
    exact selectNeatValue_eval_1
  · rw [prettyBreaks, newN_eval_1, minNeat_eval_1, maxNeat_eval_1,
      unitNeat_eval_1]
    have hr : ((5 : ℤ) + 1).toNat = 6 := by decide
    rw [hr, show List.range 6 = [0, 1, 2, 3, 4, 5] from by decide]
    norm_num

/-- C10 amended: for `min < max`, `n > 0`, every value emitted by
`prettyBreaks` is at most `max`; moreover, whenever some multiple of the
selected `unitNeat` lies in `[min, max]` (i.e. `minNeat ≤ maxNeat`), every
emitted value lies in the closed range `[min, max]`. The appended
`maxNeat` can fall below `min` when no such multiple exists. -/
theorem prettyBreaks_within_range (min max n : ℚ) (hmm : min < max)
    (hn : 0 < n) :
    (∀ x ∈ prettyBreaks min max n, x ≤ max) ∧
      (minNeat min max n ≤ maxNeat min max n →
        ∀ x ∈ prettyBreaks min max n, min ≤ x ∧ x ≤ max) := by
  have hminN := min_le_minNeat min max n
  have hmaxN := maxNeat_le_max min max n
  constructor
  · intro x hx
    rw [prettyBreaks, List.mem_append] at hx
    rcases hx with hx | hx
    · exact le_trans (prettyBreaks_loop_le_maxNeat min max n x hx) hmaxN
    · rw [List.mem_singleton] at hx
      exact hx ▸ hmaxN
  · intro hcross x hx
    rw [prettyBreaks, List.mem_append] at hx
    rcases hx with hx | hx
    · exact ⟨le_trans hminN (prettyBreaks_loop_ge_minNeat min max n x hx),
        le_trans (prettyBreaks_loop_le_maxNeat min max n x hx) hmaxN⟩
    · rw [List.mem_singleton] at hx
      subst hx
      exact ⟨le_trans hminN hcross, hmaxN⟩

/-- Witness for C10 amended: at `(0, 10, 4)` the hypothesis
`minNeat ≤ maxNeat` holds (`0 ≤ 10`), so every emitted value lies in
`[0, 10]`. -/
theorem prettyBreaks_within_range_witness :
    (∀ x ∈ prettyBreaks 0 10 4, x ≤ 10) ∧
      ∀ x ∈ prettyBreaks 0 10 4, (0 : ℚ) ≤ x ∧ x ≤ 10 := by
  have h := prettyBreaks_within_range 0 10 4 (by decide) (by decide)
  exact ⟨h.1, h.2 (by rw [minNeat_eval_1, maxNeat_eval_1]; norm_num)⟩

lemma unitGross_eval_2 : unitGross (1 / 2) (18 / 5) 1 = 31 / 10 := by
  norm_num [unitGross]

lemma base10_eval_2 : base10 (1 / 2) (18 / 5) 1 = 0 := by
  rw [base10, unitGross_eval_2]
  refine int_log_eq_of_bounds 0 (31 / 10) ?_ ?_
  · rw [zpow_zero]
    norm_num
  · rw [zero_add, zpow_one]
    norm_num

lemma selectNeatValue_eval_2 : selectNeatValue (31 / 10) 0 = 4 := by
  norm_num [selectNeatValue, neatUnits, neatStep, sqDist, zpow_zero]

lemma unitNeat_eval_2 : unitNeat (1 / 2) (18 / 5) 1 = 4 := by
  rw [unitNeat, unitGross_eval_2, base10_eval_2, selectNeatValue_eval_2,
    zpow_zero, one_mul]

lemma minNeat_eval_2 : minNeat (1 / 2) (18 / 5) 1 = 4 := by
  rw [minNeat, unitNeat_eval_2]
  rw [int_ceil_eq 1 (1 / 2 / 4) (by norm_num) (by norm_num)]
  norm_num

lemma maxNeat_eval_2 : maxNeat (1 / 2) (18 / 5) 1 = 0 := by
  rw [maxNeat, unitNeat_eval_2]
  rw [int_floor_eq 0 (18 / 5 / 4) (by norm_num) (by norm_num)]
  norm_num

lemma newN_eval_2 : newN (1 / 2) (18 / 5) 1 = -1 := by
  rw [newN, maxNeat_eval_2, minNeat_eval_2, unitNeat_eval_2]
  exact round_eq_int (-1) _ (by norm_num)

/-- C10 counterexample: at `min = 1/2`, `max = 18/5`, `n = 1` (a valid
input with `min < max`, `n > 0` and positive selected `unitNeat = 4`), no
multiple of `unitNeat` lies in the range, the loop runs zero times, and
the single emitted value is `maxNeat = 0`, which lies strictly below
`min = 1/2`: the output is not contained in `[min, max]`. -/
theorem prettyBreaks_escapes_range :
    prettyBreaks (1 / 2) (18 / 5) 1 = [0] ∧
      (1 / 2 : ℚ) < 18 / 5 ∧ (0 : ℚ) < 1 ∧
      0 < unitNeat (1 / 2) (18 / 5) 1 ∧
      ¬ ((1 / 2 : ℚ) ≤ 0) := by
  refine ⟨?_, by norm_num, by norm_num, ?_, by norm_num⟩
  · rw [prettyBreaks, newN_eval_2, maxNeat_eval_2]
    rw [show ((-1 : ℤ) + 1).toNat = 0 from by decide]
    rfl
  · rw [unitNeat_eval_2]
    norm_num

/-! ## Degenerate range: IEEE-754 special-value behavior (C2)

The source has no guard for `min == max`: `invertRange` divides by zero
and `prettyBreaks` takes `log10(0)`. To settle what the code actually
returns there, the relevant JavaScript double semantics is embedded:
finite values stay exact rationals (every value reached in the instance
below is exactly representable), extended with `Infinity`, `-Infinity`
and `NaN` following IEEE-754 / ECMA-262 rules. -/

/-- A JavaScript number: an (exactly represented) finite value, or one of
the special values `Infinity`, `-Infinity`, `NaN`. `ℚ` has no negative
zero; `fin 0` stands for `+0`, which is the zero produced by `max - min`
on equal finite operands. -/
inductive JSVal : Type
  | fin (q : ℚ)
  | inf
  | ninf
  | nan
  deriving DecidableEq

/-- JavaScript addition on doubles (special values per IEEE-754). -/
def jadd : JSVal → JSVal → JSVal
  | .nan, _ => .nan
  | _, .nan => .nan
  | .fin a, .fin b => .fin (a + b)
  | .fin _, .inf => .inf
  | .fin _, .ninf => .ninf
  | .inf, .fin _ => .inf
  | .inf, .inf => .inf
  | .inf, .ninf => .nan
  | .ninf, .fin _ => .ninf
  | .ninf, .inf => .nan
  | .ninf, .ninf => .ninf

/-- JavaScript negation on doubles. -/
def jneg : JSVal → JSVal
  | .fin a => .fin (-a)
  | .inf => .ninf
  | .ninf => .inf
  | .nan => .nan

/-- JavaScript subtraction on doubles. -/
def jsub : JSVal → JSVal → JSVal
  | .nan, _ => .nan
  | _, .nan => .nan
  | .fin a, .fin b => .fin (a - b)
  | .fin _, .inf => .ninf
  | .fin _, .ninf => .inf
  | .inf, .fin _ => .inf
  | .inf, .inf => .nan
  | .inf, .ninf => .inf
  | .ninf, .fin _ => .ninf
  | .ninf, .inf => .ninf
  | .ninf, .ninf => .nan

/-- JavaScript multiplication on doubles; `Infinity * 0 = NaN`. -/
def jmul : JSVal → JSVal → JSVal
  | .nan, _ => .nan
  | _, .nan => .nan
  | .fin a, .fin b => .fin (a * b)
  | .fin a, .inf => if 0 < a then .inf else if a < 0 then .ninf else .nan
  | .fin a, .ninf => if 0 < a then .ninf else if a < 0 then .inf else .nan
  | .inf, .fin b => if 0 < b then .inf else if b < 0 then .ninf else .nan
  | .ninf, .fin b => if 0 < b then .ninf else if b < 0 then .inf else .nan
  | .inf, .inf => .inf
  | .inf, .ninf => .ninf
  | .ninf, .inf => .ninf
  | .ninf, .ninf => .inf

/-- JavaScript division on doubles; a nonzero finite value divided by
`+0` gives a signed infinity, `0 / 0` gives `NaN`. -/
def jdiv : JSVal → JSVal → JSVal
  | .nan, _ => .nan
  | _, .nan => .nan
  | .fin a, .fin b =>
    if b = 0 then (if 0 < a then .inf else if a < 0 then .ninf else .nan)
    else .fin (a / b)
  | .fin _, .inf => .fin 0
  | .fin _, .ninf => .fin 0
  | .inf, .fin b => if b < 0 then .ninf else .inf
  | .ninf, .fin b => if b < 0 then .inf else .ninf
  | .inf, .inf => .nan
  | .inf, .ninf => .nan
  | .ninf, .inf => .nan
  | .ninf, .ninf => .nan

/-- JavaScript `x ** 2`, as used for the squared distance. -/
def jsq (v : JSVal) : JSVal := jmul v v

/-- JavaScript `<` on doubles: any comparison involving `NaN` is false. -/
def jlt : JSVal → JSVal → Bool
  | .nan, _ => false
  | _, .nan => false
  | .fin a, .fin b => decide (a < b)
  | .fin _, .inf => true
  | .fin _, .ninf => false
  | .inf, _ => false
  | .ninf, .ninf => false
  | .ninf, _ => true

/-- `Math.ceil` on doubles (special values pass through). -/
def jceil : JSVal → JSVal
  | .fin q => .fin ⌈q⌉
  | .inf => .inf
  | .ninf => .ninf
  | .nan => .nan

/-- `Math.floor` on doubles (special values pass through). -/
def jfloor : JSVal → JSVal
  | .fin q => .fin ⌊q⌋
  | .inf => .inf
  | .ninf => .ninf
  | .nan => .nan

/-- `Math.round` on doubles (round half up; special values pass
through). -/
def jround : JSVal → JSVal
  | .fin q => .fin (round q)
  | .inf => .inf
  | .ninf => .ninf
  | .nan => .nan

/-- The composition `Math.floor(Math.log10 x)` as the source computes
`base`: `log10 0 = -Infinity`, `log10` of a negative value is `NaN`, and
`Math.floor` fixes each special value. -/
def jfloorLog10 : JSVal → JSVal
  | .fin q => if 0 < q then .fin (Int.log 10 q) else
      if q = 0 then .ninf else .nan
  | .inf => .inf
  | .ninf => .nan
  | .nan => .nan

/-- `10 ** x` as the source computes `10 ** base`: `10 ** -Infinity = +0`,
`10 ** Infinity = Infinity`, `10 ** NaN = NaN`. The argument is always
`jfloorLog10` of something, hence integer-valued when finite; the
non-integer finite case cannot be reached (mapped to `NaN`, the value JS
would only produce for negative bases). -/
def jpow10 : JSVal → JSVal
  | .fin q => if q.den = 1 then .fin ((10 : ℚ) ^ q.num) else .nan
  | .inf => .inf
  | .ninf => .fin 0
  | .nan => .nan

/-- Number of iterations of `for (let i = 0; i < bound; i++)`: for a
finite bound `q` the counter hits the naturals below `q`, `⌈q⌉.toNat` of
them; a `NaN` or `-Infinity` bound fails the comparison at once. (A bound
of `+Infinity` would not terminate in JS; it is mapped to `0` and is not
reached in the instance evaluated here, where the bound is `NaN`.) -/
def jloopCount : JSVal → ℕ
  | .fin q => ⌈q⌉.toNat
  | .inf => 0
  | .ninf => 0
  | .nan => 0

/-- Embedding of `invertRange` on JavaScript doubles, including the
special values. -/
def invertRangeJS (min max : JSVal) : JSVal × JSVal × JSVal :=
  let rangeInverse := jdiv (.fin 1) (jsub max min)
  (jmul (jneg min) rangeInverse, jsub rangeInverse (jmul min rangeInverse),
    rangeInverse)

/-- Embedding of `prettyBreaks` on JavaScript doubles, including the
special values; structurally identical to the rational embedding
`prettyBreaks`, with each arithmetic operation replaced by its
special-value-aware counterpart. -/
def prettyBreaksJS (min max n : JSVal) : List JSVal :=
  let unitGross := jdiv (jsub max min) n
  let base := jfloorLog10 unitGross
  let neatValue := (neatUnits.foldl
    (fun (acc : JSVal × JSVal) (d : ℚ) =>
      let dist := jsq (jsub (jmul (.fin d) (jpow10 base)) unitGross)
      if jlt dist acc.1 then (dist, .fin d) else acc)
    (JSVal.inf, JSVal.fin 0)).2
  let unitNeat := jmul (jpow10 base) neatValue
  let minNeat := jmul (jceil (jdiv min unitNeat)) unitNeat
  let maxNeat := jmul (jfloor (jdiv max unitNeat)) unitNeat
  let newN := jround (jdiv (jsub maxNeat minNeat) unitNeat)
  (List.range (jloopCount (jadd newN (.fin 1)))).map
    (fun (i : ℕ) => jadd minNeat (jmul (.fin i) unitNeat))
  ++ [maxNeat]

/-- C2 counterexample: on the degenerate range `min = max = 5` neither
function reports an error; `invertRange` returns the scale factor
`Infinity` with `newMax = NaN`, and `prettyBreaks 5 5 4` returns `[NaN]`:
the division by zero is silently converted to `Infinity`/`NaN`. -/
theorem degenerate_range_not_reported :
    (invertRangeJS (.fin 5) (.fin 5)).2.2 = JSVal.inf ∧
      (invertRangeJS (.fin 5) (.fin 5)).2.1 = JSVal.nan ∧
      prettyBreaksJS (.fin 5) (.fin 5) (.fin 4) = [JSVal.nan] := by
  refine ⟨?_, ?_, ?_⟩
  · norm_num [invertRangeJS, jsub, jdiv]
  · norm_num [invertRangeJS, jsub, jdiv, jmul, jneg]
  · norm_num [prettyBreaksJS, jadd, jsub, jmul, jdiv, jneg, jsq, jlt,
      jceil, jfloor, jround, jfloorLog10, jpow10, jloopCount, neatUnits]

/-- C2 amended: for `min == max` no error is reported; the degenerate
inputs are silently converted to non-finite values: `invertRange 5 5`
returns the full triple `(-Infinity, NaN, Infinity)` and
`prettyBreaks 5 5 4` returns the single-element array `[NaN]` (its loop
runs zero times and the pushed `maxNeat` is `NaN`). -/
theorem degenerate_range_values :
    invertRangeJS (.fin 5) (.fin 5) = (JSVal.ninf, JSVal.nan, JSVal.inf) ∧
      prettyBreaksJS (.fin 5) (.fin 5) (.fin 4) = [JSVal.nan] := by
  constructor
  · norm_num [invertRangeJS, jsub, jdiv, jmul, jneg, Prod.ext_iff]
  · norm_num [prettyBreaksJS, jadd, jsub, jmul, jdiv, jneg, jsq, jlt,
      jceil, jfloor, jround, jfloorLog10, jpow10, jloopCount, neatUnits]
